import Mathlib

/-!
Verification of the LOAM Velodyne scan-registration core
(`src/lib/VelodyneScanRegistration.cpp`) against its natural-language
specification.  Floating-point values are modelled as real numbers; the
possibility of non-finite coordinates in the input cloud is modelled by
explicit finiteness flags carried next to each raw coordinate.  External
collaborators that live outside the repository snapshot (the IMU state
interpolation and the transform-to-sweep-start operation of the
`ScanRegistration` superclass) are modelled as opaque function parameters,
following the collaborator contracts of the specification.
-/

namespace LoamVelodyne

noncomputable section

/-- Two-argument arctangent, as computed by the C library function
`atan2(y, x)`: the angle of the point `(x, y)` in `(-pi, pi]`. -/
def atan2 (y x : ℝ) : ℝ :=
  if 0 < x then Real.arctan (y / x)
  else if x < 0 then
    (if 0 ≤ y then Real.arctan (y / x) + Real.pi
     else Real.arctan (y / x) - Real.pi)
  else if 0 < y then Real.pi / 2
  else if y < 0 then -(Real.pi / 2)
  else 0

/-- A raw input point (`pcl::PointXYZ`): three coordinates in the sensor's
native frame, each with a flag recording whether the floating-point value
is finite (`pcl_isfinite`). -/
structure RawPoint where
  x : ℝ
  y : ℝ
  z : ℝ
  xFin : Bool
  yFin : Bool
  zFin : Bool

instance : Inhabited RawPoint := ⟨⟨0, 0, 0, true, true, true⟩⟩

/-- A classified point (`pcl::PointXYZI`): remapped coordinates plus the
packed `scanID + relTime` scalar stored in the intensity field. -/
structure IPoint where
  x : ℝ
  y : ℝ
  z : ℝ
  intensity : ℝ

/-- Modelled from the spec: an entry of the externally maintained
orientation history (`ScanRegistration`'s `IMUState`, not part of this
repository snapshot).  Per the collaborator contract it carries at least a
timestamp, an orientation and a position. -/
structure IMUState where
  stamp : ℝ
  orient : ℝ × ℝ × ℝ
  pos : ℝ × ℝ × ℝ

instance : Inhabited IMUState := ⟨⟨0, (0, 0, 0), (0, 0, 0)⟩⟩

/-- All three coordinates of a raw point are finite. -/
def allFinite (p : RawPoint) : Prop :=
  p.xFin = true ∧ p.yFin = true ∧ p.zFin = true

/-- Truncation toward zero, the semantics of the C cast `int(r)` applied
to a floating-point value. -/
def truncInt (r : ℝ) : ℤ :=
  if r < 0 then -⌊-r⌋ else ⌊r⌋

/-- The rounding used by the source for the vertical angle:
`int(angle + (angle < 0.0 ? -0.5 : 0.5))`. -/
def codeRoundAngle (a : ℝ) : ℤ :=
  truncInt (a + if a < 0 then -(1 / 2 : ℝ) else (1 / 2 : ℝ))

/-- Per-point admission and ring assignment of
`VelodyneScanRegistration::process` (lines 105-128): axis remap
(`point.x = in.y`, `point.y = in.z`, `point.z = in.x`), skip of
non-finite points, skip of points with squared norm below `0.0001`,
vertical-angle ring computation, and skip of out-of-range ring indices.
Returns the `scanID` of a retained point, `none` for a skipped one. -/
def classify (nScans : ℕ) (p : RawPoint) : Option ℤ :=
  if !(p.yFin && p.zFin && p.xFin) then none
  else if p.y * p.y + p.z * p.z + p.x * p.x < 0.0001 then none
  else
    let angle := Real.arctan (p.z / Real.sqrt (p.y * p.y + p.x * p.x)) * 180 / Real.pi
    let roundedAngle := codeRoundAngle angle
    let scanID := if 0 < roundedAngle then roundedAngle else roundedAngle + ((nScans : ℤ) - 1)
    if (nScans : ℤ) - 1 < scanID ∨ scanID < 0 then none else some scanID

/-- Horizontal-angle unwrap of `process` (lines 131-150): in the first
half of the sweep the raw angle is shifted into a window around the start
orientation; once `halfPassed`, `2 * pi` is added first and the result is
shifted into a window around the end orientation. -/
def unwrapOri (hp : Bool) (s e o : ℝ) : ℝ :=
  if hp then
    let o2 := o + 2 * Real.pi
    if o2 < e - Real.pi * 3 / 2 then o2 + 2 * Real.pi
    else if o2 > e + Real.pi / 2 then o2 - 2 * Real.pi
    else o2
  else
    if o < s - Real.pi / 2 then o + 2 * Real.pi
    else if o > s + Real.pi * 3 / 2 then o - 2 * Real.pi
    else o

/-- Relative scan time of a point (line 153):
`relTime = scanPeriod * (ori - startOri) / (endOri - startOri)`. -/
def relTimeOf (sp s e o : ℝ) : ℝ :=
  sp * (o - s) / (e - s)

/-- The cursor-advancing while loop of `process` (lines 158-160):
advance `imuIdx` while it is before the last history entry and the
point's absolute time is past the entry's timestamp. -/
def advanceImu (hist : List IMUState) (scanTime relTime : ℝ) (idx : ℕ) : ℕ :=
  if h : idx < hist.length - 1 ∧ scanTime - (hist.getD idx default).stamp + relTime > 0 then
    advanceImu hist scanTime relTime (idx + 1)
  else idx
termination_by hist.length - idx
decreasing_by
  exact Nat.sub_lt_sub_left (lt_of_lt_of_le h.1 (Nat.sub_le _ _)) (Nat.lt_succ_self idx)

/-- IMU state selection of `process` (lines 158-168): advance the cursor,
then either take a history entry directly (boundary clamp) or
interpolate between the two bracketing entries.  The interpolation
operation `interp` itself belongs to the external `IMUState` collaborator
and is a parameter. -/
def imuSelect (hist : List IMUState) (interp : IMUState → IMUState → ℝ → IMUState)
    (scanTime relTime : ℝ) (startIdx : ℕ) : ℕ × IMUState :=
  let idx := advanceImu hist scanTime relTime startIdx
  if idx = 0 ∨ scanTime - (hist.getD idx default).stamp + relTime > 0 then
    (idx, hist.getD idx default)
  else
    let frac := (((hist.getD idx default).stamp - scanTime) - relTime) /
      ((hist.getD idx default).stamp - (hist.getD (idx - 1) default).stamp)
    (idx, interp (hist.getD idx default) (hist.getD (idx - 1) default) frac)

/-- Configuration and collaborator context of one `process` call:
the scan period and ring count, the sweep timestamp, the IMU history and
the cursor start index established by `reset`, and the two external
collaborator operations.  `transform` is modelled from the spec:
`transformToStartIMU` re-expresses a point's coordinates in the
sweep-start frame, given the interpolated IMU state and the point's
relative time, and touches only the coordinates. -/
structure Config where
  scanPeriod : ℝ
  nScans : ℕ
  scanTime : ℝ
  imuHist : List IMUState
  imuStartIdx : ℕ
  interp : IMUState → IMUState → ℝ → IMUState
  transform : IMUState → ℝ → ℝ × ℝ × ℝ → ℝ × ℝ × ℝ

/-- Mutable state threaded through the per-point loop of `process`:
the `halfPassed` flag, the IMU cursor, and the per-ring buffers. -/
structure PState where
  halfPassed : Bool
  imuIdx : ℕ
  scans : List (List IPoint)

/-- The classified point as appended to its ring buffer (lines 131-173):
remapped coordinates, intensity packed as `scanID + relTime`, and, when
the IMU history is non-empty, coordinates replaced by the
transform-to-sweep-start of the selected IMU state. -/
def madePoint (cfg : Config) (s e : ℝ) (st : PState) (p : RawPoint) (sid : ℤ) : IPoint :=
  let ori := unwrapOri st.halfPassed s e (-atan2 p.y p.x)
  let relTime := relTimeOf cfg.scanPeriod s e ori
  if cfg.imuHist.isEmpty then
    ⟨p.y, p.z, p.x, (sid : ℝ) + relTime⟩
  else
    let sel := imuSelect cfg.imuHist cfg.interp cfg.scanTime relTime st.imuIdx
    let c := cfg.transform sel.2 relTime (p.y, p.z, p.x)
    ⟨c.1, c.2.1, c.2.2, (sid : ℝ) + relTime⟩

/-- One iteration of the per-point loop of `process` (lines 105-174):
a skipped point leaves the state unchanged; a retained point updates
`halfPassed`, advances the IMU cursor when the history is non-empty, and
appends the classified point to the ring buffer chosen by its `scanID`. -/
def processPoint (cfg : Config) (s e : ℝ) (st : PState) (p : RawPoint) : PState :=
  match classify cfg.nScans p with
  | none => st
  | some sid =>
    let ori := unwrapOri st.halfPassed s e (-atan2 p.y p.x)
    let hp := st.halfPassed || decide (ori - s > Real.pi)
    let idx :=
      if cfg.imuHist.isEmpty then st.imuIdx
      else (imuSelect cfg.imuHist cfg.interp cfg.scanTime (relTimeOf cfg.scanPeriod s e ori) st.imuIdx).1
    ⟨hp, idx, st.scans.set sid.toNat (st.scans.getD sid.toNat [] ++ [madePoint cfg s e st p sid])⟩

/-- The per-point loop of `process` over the whole input cloud. -/
def processPoints (cfg : Config) (s e : ℝ) : PState → List RawPoint → PState
  | st, [] => st
  | st, p :: ps => processPoints cfg s e (processPoint cfg s e st p) ps

/-- Sweep start orientation (line 90):
`startOri = -atan2(points[0].y, points[0].x)`. -/
def startOriOf (cloud : List RawPoint) : ℝ :=
  -atan2 (cloud.getD 0 default).y (cloud.getD 0 default).x

/-- Sweep end orientation before correction (lines 91-92):
`endOri = -atan2(points[cloudSize-1].y, points[cloudSize-1].x) + 2*pi`. -/
def endOriRawOf (cloud : List RawPoint) : ℝ :=
  -atan2 (cloud.getD (cloud.length - 1) default).y (cloud.getD (cloud.length - 1) default).x
    + 2 * Real.pi

/-- The wraparound correction of the end orientation (lines 93-97):
subtract `2*pi` when the span exceeds `3*pi`, add `2*pi` when it is
below `pi`. -/
def correctEndOri (s e : ℝ) : ℝ :=
  if e - s > 3 * Real.pi then e - 2 * Real.pi
  else if e - s < Real.pi then e + 2 * Real.pi
  else e

/-- Corrected sweep end orientation, as used by the rest of `process`. -/
def endOriOf (cloud : List RawPoint) : ℝ :=
  correctEndOri (startOriOf cloud) (endOriRawOf cloud)

/-- The per-point loop state at the start of a sweep: `halfPassed` false,
IMU cursor at the index established by `reset`, all ring buffers empty. -/
def initState (cfg : Config) : PState :=
  ⟨false, cfg.imuStartIdx, List.replicate cfg.nScans []⟩

/-- The ring buffers (`laserCloudScans`) left by the per-point loop of a
whole `process` call. -/
def scansOf (cfg : Config) (cloud : List RawPoint) : List (List IPoint) :=
  (processPoints cfg (startOriOf cloud) (endOriOf cloud) (initState cfg) cloud).scans

/-- Output of the ring assembly: the concatenated cloud and the parallel
`ringStart` / `ringEnd` index arrays. -/
structure ProcResult where
  cloud : List IPoint
  scanStart : List ℤ
  scanEnd : List ℤ

/-- Ring assembly loop of `process` (lines 176-184): iterate the ring
buffers in order, append each to the output cloud, record the running
size before appending as the ring's start index and the size minus one
after appending as its end index.  `acc` is the running `cloudSize`. -/
def assembleFrom (scans : List (List IPoint)) (acc : ℕ) : ProcResult :=
  match scans with
  | [] => ⟨[], [], []⟩
  | sc :: rest =>
    let r := assembleFrom rest (acc + sc.length)
    ⟨sc ++ r.cloud, (acc : ℤ) :: r.scanStart, ((acc : ℤ) + sc.length - 1) :: r.scanEnd⟩

/-- The whole of `VelodyneScanRegistration::process` up to the handoff to
feature extraction: orientation bootstrap, per-point loop, ring
assembly. -/
def process (cfg : Config) (cloud : List RawPoint) : ProcResult :=
  assembleFrom (scansOf cfg cloud) 0

/-- Total number of points held in a family of ring buffers. -/
def sumLens (scans : List (List IPoint)) : ℕ :=
  (scans.map List.length).sum

/-- The spec's aggregate `sum(ringEnd[i] - ringStart[i] + 1)` over the
populated rings (those with `ringStart[i] <= ringEnd[i]`). -/
def populatedSum (r : ProcResult) : ℤ :=
  (((r.scanStart.zip r.scanEnd).filter (fun q => decide (q.1 ≤ q.2))).map
    (fun q => q.2 - q.1 + 1)).sum

/-- Validity filter alone, as the spec's claim words it: finite
coordinates and squared norm at or above the threshold; the ring-range
check is not part of it. -/
def validOnlyB (p : RawPoint) : Bool :=
  (p.yFin && p.zFin && p.xFin) &&
    decide (¬ (p.y * p.y + p.z * p.z + p.x * p.x < 0.0001))

/-- Modelled from the spec: rounding to the nearest integer with ties
away from zero, the spec's description of the vertical-angle rounding. -/
def specRoundTiesAway (a : ℝ) : ℤ :=
  if 0 ≤ a then ⌊a + 1 / 2⌋ else ⌈a - 1 / 2⌉

/-- Modelled from the spec: the ring-assignment mapping as the spec
words it, taking the remapped coordinates: vertical angle
`atan(y / sqrt(x^2 + z^2)) * 180 / pi`, rounded to nearest with ties
away from zero, then `ringID = r` when `r > 0`, else `r + (N - 1)`. -/
def specRingID (nScans : ℕ) (x y z : ℝ) : ℤ :=
  let theta := Real.arctan (y / Real.sqrt (x ^ 2 + z ^ 2)) * 180 / Real.pi
  let r := specRoundTiesAway theta
  if 0 < r then r else r + ((nScans : ℤ) - 1)

end

/-- The message-handler gate of `processCloudMessage` (lines 65-70) over
the `_systemDelay` counter: while the counter is positive, decrement it
and return without processing; otherwise process the sweep. -/
def handleMsg (d : ℤ) : ℤ × Bool :=
  if d > 0 then (d - 1, false) else (d, true)

/-- The `_systemDelay` counter as initialized by the constructor
(line 43). -/
def initDelay : ℤ := 20

/-- State after `n` calls of `processCloudMessage` since construction:
the remaining delay counter and the number of messages actually
processed. -/
def runMsgs : ℕ → ℤ × ℕ
  | 0 => (initDelay, 0)
  | n + 1 =>
    let st := runMsgs n
    let h := handleMsg st.1
    (h.1, st.2 + if h.2 then 1 else 0)

/-! ### Helper lemmas -/

theorem atan2_le_pi (y x : ℝ) : atan2 y x ≤ Real.pi := by
  have hpi := Real.pi_pos
  unfold atan2
  split_ifs with h1 h2 h3 h4 h5
  · have := Real.arctan_lt_pi_div_two (y / x)
    linarith
  · have harg : y / x ≤ 0 := div_nonpos_of_nonneg_of_nonpos h3 h2.le
    have : Real.arctan (y / x) ≤ Real.arctan 0 := Real.arctan_strictMono.monotone harg
    rw [Real.arctan_zero] at this
    linarith
  · have := Real.arctan_lt_pi_div_two (y / x)
    linarith
  · linarith
  · linarith
  · linarith

theorem neg_pi_lt_atan2 (y x : ℝ) : -Real.pi < atan2 y x := by
  have hpi := Real.pi_pos
  unfold atan2
  split_ifs with h1 h2 h3 h4 h5
  · have := Real.neg_pi_div_two_lt_arctan (y / x)
    linarith
  · have := Real.neg_pi_div_two_lt_arctan (y / x)
    linarith
  · have harg : 0 < y / x := div_pos_of_neg_of_neg (not_le.mp h3) h2
    have : Real.arctan 0 < Real.arctan (y / x) := Real.arctan_strictMono harg
    rw [Real.arctan_zero] at this
    linarith
  · linarith
  · linarith
  · linarith

/-! ### C1: sweep orientation bootstrap span -/

/-- C1: for every input sweep of size at least 2 with finite first and
last points, the corrected span `endOri - startOri` computed by the
orientation bootstrap of `process` lies in `[pi, 3*pi]`. -/
theorem bootstrap_span_in_Icc (cloud : List RawPoint)
    (hlen : 2 ≤ cloud.length)
    (hfirst : allFinite (cloud.getD 0 default))
    (hlast : allFinite (cloud.getD (cloud.length - 1) default)) :
    endOriOf cloud - startOriOf cloud ∈ Set.Icc Real.pi (3 * Real.pi) := by
  have hpi := Real.pi_pos
  set p0 := cloud.getD 0 default
  set pl := cloud.getD (cloud.length - 1) default
  have hs1 : -Real.pi < atan2 p0.y p0.x := neg_pi_lt_atan2 _ _
  have hs2 : atan2 p0.y p0.x ≤ Real.pi := atan2_le_pi _ _
  have he1 : -Real.pi < atan2 pl.y pl.x := neg_pi_lt_atan2 _ _
  have he2 : atan2 pl.y pl.x ≤ Real.pi := atan2_le_pi _ _
  have hs : startOriOf cloud = -atan2 p0.y p0.x := rfl
  have he : endOriRawOf cloud = -atan2 pl.y pl.x + 2 * Real.pi := rfl
  rw [endOriOf, correctEndOri]
  split_ifs with h1 h2 <;>
    simp only [Set.mem_Icc] <;> constructor <;> rw [hs] at * <;> rw [he] at * <;> linarith

/-- Witness for C1 at a concrete two-point sweep. -/
theorem bootstrap_span_in_Icc_witness :
    2 ≤ ([⟨1, 0, 0, true, true, true⟩, ⟨-1, 0, 0, true, true, true⟩] : List RawPoint).length ∧
    endOriOf [⟨1, 0, 0, true, true, true⟩, ⟨-1, 0, 0, true, true, true⟩] -
      startOriOf [⟨1, 0, 0, true, true, true⟩, ⟨-1, 0, 0, true, true, true⟩] ∈
      Set.Icc Real.pi (3 * Real.pi) :=
  ⟨by simp,
   bootstrap_span_in_Icc [⟨1, 0, 0, true, true, true⟩, ⟨-1, 0, 0, true, true, true⟩]
     (by simp) ⟨rfl, rfl, rfl⟩ ⟨rfl, rfl, rfl⟩⟩

/-! ### C10: system-delay gate on incoming messages -/

/-- C10: the message handler silently discards the first 20 incoming
cloud messages: each such call merely decrements the delay counter
(initialized to 20) without processing, and the 21st message is the
first to be processed. -/
theorem systemDelay_gate (k : ℕ) (hk : k < 20) :
    (handleMsg (runMsgs k).1).2 = false ∧
    (runMsgs (k + 1)).1 = (runMsgs k).1 - 1 ∧
    (runMsgs 20).2 = 0 ∧
    (handleMsg (runMsgs 20).1).2 = true ∧
    (runMsgs 21).2 = 1 := by
  revert k hk
  decide

/-- Witness for C10 at the first message. -/
theorem systemDelay_gate_witness :
    (handleMsg (runMsgs 0).1).2 = false ∧
    (runMsgs 1).1 = (runMsgs 0).1 - 1 ∧
    (runMsgs 20).2 = 0 ∧
    (handleMsg (runMsgs 20).1).2 = true ∧
    (runMsgs 21).2 = 1 :=
  systemDelay_gate 0 (by decide)

/-! ### C2: relative time is monotone along the unwrapped angular order -/

/-- C2: within one contiguous angular region of the sweep — formalized
as: both points are in the same unwrap phase (`hp`) and receive the same
`2*pi` unwrap offset — a point with a larger raw horizontal angle gets a
relative time at least as large, so `relTime` is non-decreasing along a
ring buffer in unwrapped angular order. -/
theorem relTime_mono_in_region (sp s e o1 o2 : ℝ) (hp : Bool)
    (hsp : 0 ≤ sp) (hse : s < e)
    (hsame : unwrapOri hp s e o1 - o1 = unwrapOri hp s e o2 - o2)
    (h12 : o1 ≤ o2) :
    relTimeOf sp s e (unwrapOri hp s e o1) ≤ relTimeOf sp s e (unwrapOri hp s e o2) := by
  have hord : unwrapOri hp s e o1 ≤ unwrapOri hp s e o2 := by linarith
  unfold relTimeOf
  have hden : 0 < e - s := by linarith
  have hnum : sp * (unwrapOri hp s e o1 - s) ≤ sp * (unwrapOri hp s e o2 - s) :=
    mul_le_mul_of_nonneg_left (by linarith) hsp
  exact div_le_div_of_nonneg_right hnum hden.le

/-- Witness for C2 with two concrete first-phase angles. -/
theorem relTime_mono_in_region_witness :
    relTimeOf 1 0 4 (unwrapOri false 0 4 0) ≤ relTimeOf 1 0 4 (unwrapOri false 0 4 1) := by
  have hpi3 := Real.pi_gt_three
  have hu0 : unwrapOri false 0 4 0 = 0 := by
    unfold unwrapOri
    rw [if_neg (by simp), if_neg (by linarith), if_neg (by linarith)]
  have hu1 : unwrapOri false 0 4 1 = 1 := by
    unfold unwrapOri
    rw [if_neg (by simp), if_neg (by linarith), if_neg (by linarith)]
  exact relTime_mono_in_region 1 0 4 0 1 false (by norm_num) (by norm_num)
    (by rw [hu0, hu1]; norm_num) (by norm_num)

/-! ### C9: the bootstrap's point accesses are in bounds for sweeps of size at least 2 -/

/-- C9: with at least 2 input points, the orientation bootstrap's reads
of the first point (index 0) and the last point (index `cloudSize - 1`)
are in bounds, and the bootstrap orientations are computed from exactly
those points; the code performs no size check of its own, so smaller
inputs are a caller-side precondition violation. -/
theorem bootstrap_accesses_in_bounds (cloud : List RawPoint)
    (hlen : 2 ≤ cloud.length) :
    ∃ p0 pl, cloud.get? 0 = some p0 ∧ cloud.get? (cloud.length - 1) = some pl ∧
      startOriOf cloud = -atan2 p0.y p0.x ∧
      endOriRawOf cloud = -atan2 pl.y pl.x + 2 * Real.pi := by
  have h0 : 0 < cloud.length := by omega
  have hl : cloud.length - 1 < cloud.length := by omega
  refine ⟨cloud.get ⟨0, h0⟩, cloud.get ⟨cloud.length - 1, hl⟩,
    List.get?_eq_get h0, List.get?_eq_get hl, ?_, ?_⟩
  · rw [startOriOf, List.getD_eq_get _ _ h0]
  · rw [endOriRawOf, List.getD_eq_get _ _ hl]

/-- Witness for C9 at a concrete two-point sweep. -/
theorem bootstrap_accesses_in_bounds_witness :
    ∃ p0 pl,
      ([⟨2, 3, 0, true, true, true⟩, ⟨-2, 1, 0, true, true, true⟩] : List RawPoint).get? 0 =
        some p0 ∧
      ([⟨2, 3, 0, true, true, true⟩, ⟨-2, 1, 0, true, true, true⟩] : List RawPoint).get?
        (([⟨2, 3, 0, true, true, true⟩, ⟨-2, 1, 0, true, true, true⟩] : List RawPoint).length - 1) =
        some pl ∧
      startOriOf [⟨2, 3, 0, true, true, true⟩, ⟨-2, 1, 0, true, true, true⟩] =
        -atan2 p0.y p0.x ∧
      endOriRawOf [⟨2, 3, 0, true, true, true⟩, ⟨-2, 1, 0, true, true, true⟩] =
        -atan2 pl.y pl.x + 2 * Real.pi :=
  bootstrap_accesses_in_bounds _ (by simp)

/-! ### C7: boundary clamp at relative time zero -/

/-- C7: a point at exactly `relTime = 0`, processed with the cursor at
the first entry of a non-empty orientation history whose first timestamp
equals the sweep timestamp, is compensated with that first entry's state
directly — for every possible interpolation operation, so no
interpolation takes place. -/
theorem imu_boundary_clamp (hist : List IMUState)
    (interp : IMUState → IMUState → ℝ → IMUState) (scanTime : ℝ)
    (hne : hist ≠ [])
    (hstamp : (hist.getD 0 default).stamp = scanTime) :
    imuSelect hist interp scanTime 0 0 = (0, hist.getD 0 default) := by
  have hadv : advanceImu hist scanTime 0 0 = 0 := by
    rw [advanceImu]
    rw [dif_neg]
    rw [hstamp]
    simp
  rw [imuSelect]
  simp [hadv]

/-- Witness for C7 with a one-entry history. -/
theorem imu_boundary_clamp_witness :
    imuSelect [⟨3, (0, 0, 0), (0, 0, 0)⟩] (fun a _ _ => a) 3 0 0 =
      (0, ([⟨3, (0, 0, 0), (0, 0, 0)⟩] : List IMUState).getD 0 default) :=
  imu_boundary_clamp [⟨3, (0, 0, 0), (0, 0, 0)⟩] (fun a _ _ => a) 3 (by simp) rfl

/-! ### C8: empty orientation history and the packed scalar -/

/-- C8: when the orientation history is empty the motion-compensation
stage is skipped: the appended point keeps its raw remapped coordinates
and the IMU cursor is untouched; and whatever the history and transform,
the appended point's intensity is exactly the packed
`scanID + relTime` scalar fixed at classification. -/
theorem empty_history_skips_compensation (cfg : Config) (s e : ℝ) (st : PState)
    (p : RawPoint) (sid : ℤ) :
    (cfg.imuHist = [] →
      madePoint cfg s e st p sid =
        ⟨p.y, p.z, p.x, (sid : ℝ) +
          relTimeOf cfg.scanPeriod s e (unwrapOri st.halfPassed s e (-atan2 p.y p.x))⟩ ∧
      (processPoint cfg s e st p).imuIdx = st.imuIdx) ∧
    (madePoint cfg s e st p sid).intensity =
      (sid : ℝ) + relTimeOf cfg.scanPeriod s e (unwrapOri st.halfPassed s e (-atan2 p.y p.x)) := by
  constructor
  · intro hh
    have hemp : cfg.imuHist.isEmpty = true := by rw [hh]; rfl
    constructor
    · rw [madePoint]
      simp only [hemp, if_true]
    · rw [processPoint]
      cases h : classify cfg.nScans p with
      | none => rfl
      | some sid2 => simp only [hemp, if_true]
  · rw [madePoint]
    by_cases hemp : cfg.imuHist.isEmpty <;> simp [hemp]

/-- An empty-history configuration used as a concrete instance. -/
noncomputable def cfgEmptyHist : Config := ⟨1/10, 2, 0, [], 0, fun a _ _ => a, fun _ _ c => c⟩

/-- A two-ring loop state with empty buffers, used as a concrete instance. -/
def stTwoRings : PState := ⟨false, 0, [[], []]⟩

/-- A concrete raw point on the sensor's forward axis. -/
def pForward : RawPoint := ⟨1, 0, 0, true, true, true⟩

/-- Witness for C8 with an empty-history configuration. -/
theorem empty_history_skips_compensation_witness :
    (madePoint cfgEmptyHist 0 4 stTwoRings pForward 1 =
      ⟨pForward.y, pForward.z, pForward.x, ((1 : ℤ) : ℝ) +
        relTimeOf cfgEmptyHist.scanPeriod 0 4
          (unwrapOri stTwoRings.halfPassed 0 4 (-atan2 pForward.y pForward.x))⟩ ∧
      (processPoint cfgEmptyHist 0 4 stTwoRings pForward).imuIdx = stTwoRings.imuIdx) ∧
    (madePoint cfgEmptyHist 0 4 stTwoRings pForward 1).intensity =
      ((1 : ℤ) : ℝ) + relTimeOf cfgEmptyHist.scanPeriod 0 4
        (unwrapOri stTwoRings.halfPassed 0 4 (-atan2 pForward.y pForward.x)) :=
  ⟨(empty_history_skips_compensation cfgEmptyHist 0 4 stTwoRings pForward 1).1 rfl,
   (empty_history_skips_compensation cfgEmptyHist 0 4 stTwoRings pForward 1).2⟩

/-! ### Helper lemmas about classification, ring buffers and assembly -/

theorem classify_some_range (nScans : ℕ) (p : RawPoint) (sid : ℤ)
    (h : classify nScans p = some sid) : 0 ≤ sid ∧ sid < (nScans : ℤ) := by
  simp only [classify] at h
  split_ifs at h with h1 h2 h3 <;> simp_all <;> omega

theorem sumLens_set_append (l : List (List IPoint)) (k : ℕ) (q : IPoint)
    (hk : k < l.length) :
    sumLens (l.set k (l.getD k [] ++ [q])) = sumLens l + 1 := by
  induction l generalizing k with
  | nil => simp at hk
  | cons a t ih =>
    cases k with
    | zero => simp [sumLens]; omega
    | succ k =>
      have hk' : k < t.length := by simpa using hk
      have := ih k hk'
      simp only [List.set, List.getD_cons_succ, sumLens, List.map_cons, List.sum_cons] at *
      omega

theorem processPoint_scans_length (cfg : Config) (s e : ℝ) (st : PState) (p : RawPoint) :
    (processPoint cfg s e st p).scans.length = st.scans.length := by
  cases h : classify cfg.nScans p with
  | none => simp [processPoint, h]
  | some sid => simp [processPoint, h, List.length_set]

theorem processPoints_scans_length (cfg : Config) (s e : ℝ) (ps : List RawPoint) :
    ∀ st : PState, (processPoints cfg s e st ps).scans.length = st.scans.length := by
  induction ps with
  | nil => intro st; rfl
  | cons p ps ih =>
    intro st
    rw [processPoints, ih, processPoint_scans_length]

theorem processPoints_sumLens (cfg : Config) (s e : ℝ) (ps : List RawPoint) :
    ∀ st : PState, st.scans.length = cfg.nScans →
      sumLens (processPoints cfg s e st ps).scans =
        sumLens st.scans + ps.countP (fun p => (classify cfg.nScans p).isSome) := by
  induction ps with
  | nil => intro st _; simp [processPoints]
  | cons p ps ih =>
    intro st hlen
    rw [processPoints]
    cases h : classify cfg.nScans p with
    | none =>
      have hpp : processPoint cfg s e st p = st := by simp [processPoint, h]
      rw [hpp, ih st hlen, List.countP_cons]
      simp [h]
    | some sid =>
      have hrange := classify_some_range cfg.nScans p sid h
      have hk : sid.toNat < st.scans.length := by rw [hlen]; omega
      have hpp : (processPoint cfg s e st p).scans =
          st.scans.set sid.toNat
            (st.scans.getD sid.toNat [] ++ [madePoint cfg s e st p sid]) := by
        simp [processPoint, h]
      have hlen2 : (processPoint cfg s e st p).scans.length = cfg.nScans := by
        rw [processPoint_scans_length, hlen]
      rw [ih _ hlen2, hpp, sumLens_set_append _ _ _ hk, List.countP_cons]
      simp [h]
      omega

theorem assembleFrom_scanStart_length (scans : List (List IPoint)) :
    ∀ acc, (assembleFrom scans acc).scanStart.length = scans.length := by
  induction scans with
  | nil => intro acc; rfl
  | cons sc t ih => intro acc; simp [assembleFrom, ih]

theorem assembleFrom_scanEnd_length (scans : List (List IPoint)) :
    ∀ acc, (assembleFrom scans acc).scanEnd.length = scans.length := by
  induction scans with
  | nil => intro acc; rfl
  | cons sc t ih => intro acc; simp [assembleFrom, ih]

theorem assembleFrom_scanStart_getD (scans : List (List IPoint)) :
    ∀ acc i, i < scans.length →
      (assembleFrom scans acc).scanStart.getD i 0 =
        (acc : ℤ) + (sumLens (scans.take i) : ℤ) := by
  induction scans with
  | nil => intro acc i hi; simp at hi
  | cons sc t ih =>
    intro acc i hi
    cases i with
    | zero => simp [assembleFrom, sumLens]
    | succ i =>
      simp only [assembleFrom, List.getD_cons_succ, List.take_succ_cons]
      rw [ih (acc + sc.length) i (by simpa using hi)]
      simp only [sumLens, List.map_cons, List.sum_cons]
      push_cast
      ring

theorem assembleFrom_scanEnd_getD (scans : List (List IPoint)) :
    ∀ acc i, i < scans.length →
      (assembleFrom scans acc).scanEnd.getD i 0 =
        (acc : ℤ) + (sumLens (scans.take (i + 1)) : ℤ) - 1 := by
  induction scans with
  | nil => intro acc i hi; simp at hi
  | cons sc t ih =>
    intro acc i hi
    cases i with
    | zero => simp [assembleFrom, sumLens]
    | succ i =>
      simp only [assembleFrom, List.getD_cons_succ, List.take_succ_cons]
      rw [ih (acc + sc.length) i (by simpa using hi)]
      simp only [sumLens, List.map_cons, List.sum_cons]
      push_cast
      ring

theorem sumLens_take_succ (l : List (List IPoint)) :
    ∀ i, i < l.length →
      sumLens (l.take (i + 1)) = sumLens (l.take i) + (l.getD i []).length := by
  induction l with
  | nil => intro i hi; simp at hi
  | cons a t ih =>
    intro i hi
    cases i with
    | zero => simp [sumLens]
    | succ i =>
      have := ih i (by simpa using hi)
      simp only [List.take_succ_cons, List.getD_cons_succ, sumLens, List.map_cons,
        List.sum_cons] at *
      omega

theorem populatedSum_assembleFrom (scans : List (List IPoint)) :
    ∀ acc, populatedSum (assembleFrom scans acc) = (sumLens scans : ℤ) := by
  induction scans with
  | nil => intro acc; simp [populatedSum, assembleFrom, sumLens]
  | cons sc t ih =>
    intro acc
    have hrec := ih (acc + sc.length)
    simp only [populatedSum, assembleFrom, List.zip_cons_cons, List.filter_cons] at hrec ⊢
    by_cases hc : (acc : ℤ) ≤ (acc : ℤ) + sc.length - 1
    · have hl : 1 ≤ (sc.length : ℤ) := by omega
      rw [if_pos (by simpa using hc)]
      simp only [List.map_cons, List.sum_cons]
      rw [hrec]
      simp only [sumLens, List.map_cons, List.sum_cons]
      push_cast
      ring
    · have hl : (sc.length : ℤ) = 0 := by omega
      rw [if_neg (by simpa using hc)]
      rw [hrec]
      simp only [sumLens, List.map_cons, List.sum_cons]
      omega

theorem process_populatedSum_eq_kept (cfg : Config) (cloud : List RawPoint) :
    populatedSum (process cfg cloud) =
      (cloud.countP (fun p => (classify cfg.nScans p).isSome) : ℤ) := by
  rw [process, populatedSum_assembleFrom]
  rw [scansOf, processPoints_sumLens cfg _ _ cloud (initState cfg) (by simp [initState])]
  simp [initState, sumLens]

/-! ### C3: ring ranges are contiguous, non-overlapping and in ring order -/

/-- C3: after ring assembly, `ringStart[i]` is the assembled-cloud size
before ring `i`'s buffer is appended, `ringEnd[i]` is the size minus one
after, adjacent ranges satisfy `ringEnd[i] = ringStart[i+1] - 1`, and the
range is inverted (`ringStart[i] > ringEnd[i]`) exactly when ring `i`
received zero points. -/
theorem ring_ranges_contiguous (cfg : Config) (cloud : List RawPoint) (i : ℕ)
    (hi : i < cfg.nScans) :
    (process cfg cloud).scanStart.getD i 0 =
      (sumLens ((scansOf cfg cloud).take i) : ℤ) ∧
    (process cfg cloud).scanEnd.getD i 0 =
      (sumLens ((scansOf cfg cloud).take (i + 1)) : ℤ) - 1 ∧
    (i + 1 < cfg.nScans →
      (process cfg cloud).scanEnd.getD i 0 =
        (process cfg cloud).scanStart.getD (i + 1) 0 - 1) ∧
    ((process cfg cloud).scanStart.getD i 0 > (process cfg cloud).scanEnd.getD i 0 ↔
      (scansOf cfg cloud).getD i [] = []) := by
  have hslen : (scansOf cfg cloud).length = cfg.nScans := by
    rw [scansOf, processPoints_scans_length]
    simp [initState]
  have hi' : i < (scansOf cfg cloud).length := by omega
  have hst := assembleFrom_scanStart_getD (scansOf cfg cloud) 0 i hi'
  have hen := assembleFrom_scanEnd_getD (scansOf cfg cloud) 0 i hi'
  have htk := sumLens_take_succ (scansOf cfg cloud) i hi'
  refine ⟨by rw [process, hst]; ring, by rw [process, hen]; ring, ?_, ?_⟩
  · intro hi1
    have hi1' : i + 1 < (scansOf cfg cloud).length := by omega
    have hst1 := assembleFrom_scanStart_getD (scansOf cfg cloud) 0 (i + 1) hi1'
    rw [process, hen, hst1]
  · rw [process, hst, hen, htk]
    push_cast
    constructor
    · intro h
      have hz : ((scansOf cfg cloud).getD i []).length = 0 := by omega
      exact List.length_eq_zero.mp hz
    · intro h
      rw [h]
      simp

/-- Witness for C3 at ring 0 of a two-ring configuration on the empty
input sweep. -/
theorem ring_ranges_contiguous_witness :
    (process cfgEmptyHist []).scanStart.getD 0 0 =
      (sumLens ((scansOf cfgEmptyHist []).take 0) : ℤ) ∧
    (process cfgEmptyHist []).scanEnd.getD 0 0 =
      (sumLens ((scansOf cfgEmptyHist []).take 1) : ℤ) - 1 ∧
    (0 + 1 < cfgEmptyHist.nScans →
      (process cfgEmptyHist []).scanEnd.getD 0 0 =
        (process cfgEmptyHist []).scanStart.getD (0 + 1) 0 - 1) ∧
    ((process cfgEmptyHist []).scanStart.getD 0 0 > (process cfgEmptyHist []).scanEnd.getD 0 0 ↔
      (scansOf cfgEmptyHist []).getD 0 [] = []) :=
  ring_ranges_contiguous cfgEmptyHist [] 0 (by norm_num [cfgEmptyHist])

/-! ### C4: the populated-range sum counts the retained points -/

/-- A raw point on the sensor diagonal: it passes the validity filter but
its vertical angle of 45 degrees is outside every small ring range. -/
def pDiag : RawPoint := ⟨1, 0, 1, true, true, true⟩

theorem classify_pForward : classify 2 pForward = some 1 := by
  simp only [classify, pForward, codeRoundAngle, truncInt]
  norm_num [Real.sqrt_one, Real.arctan_zero]

theorem classify_pDiag : classify 2 pDiag = none := by
  have hang : Real.arctan ((1 : ℝ) / Real.sqrt (0 * 0 + 1 * 1)) * 180 / Real.pi = 45 := by
    rw [show ((0 : ℝ) * 0 + 1 * 1) = 1 by norm_num, Real.sqrt_one, div_one, Real.arctan_one]
    field_simp
    ring
  have hfl : (⌊(45 : ℝ) + 1 / 2⌋ : ℤ) = 45 := by
    rw [Int.floor_eq_iff]
    constructor <;> norm_num
  simp only [classify, pDiag, codeRoundAngle, truncInt, hang]
  norm_num [hfl]

theorem validOnlyB_pForward : validOnlyB pForward = true := by
  simp only [validOnlyB, pForward]
  norm_num

theorem validOnlyB_pDiag : validOnlyB pDiag = true := by
  simp only [validOnlyB, pDiag]
  norm_num

/-- Counterexample to C4 as stated: on a two-point sweep whose second
point passes the validity filter but has an out-of-range ring index, the
populated-range sum is 1 while 2 points survive validity filtering. -/
theorem populated_sum_ne_validity_count :
    populatedSum (process cfgEmptyHist [pForward, pDiag]) ≠
      (List.countP (fun p => validOnlyB p) [pForward, pDiag] : ℤ) := by
  rw [process_populatedSum_eq_kept]
  have hc : List.countP (fun p => (classify cfgEmptyHist.nScans p).isSome)
      [pForward, pDiag] = 1 := by
    have hn : cfgEmptyHist.nScans = 2 := rfl
    simp [List.countP_cons, hn, classify_pForward, classify_pDiag]
  have hv : List.countP (fun p => validOnlyB p) [pForward, pDiag] = 2 := by
    simp [List.countP_cons, validOnlyB_pForward, validOnlyB_pDiag]
  rw [hc, hv]
  norm_num

/-- C4 (amended): the populated-range sum equals the number of input
points that survive the validity filter and the ring-range check, i.e.
the points actually appended to some ring buffer. -/
theorem populated_sum_eq_retained_count (cfg : Config) (cloud : List RawPoint) :
    populatedSum (process cfg cloud) =
      (cloud.countP (fun p => (classify cfg.nScans p).isSome) : ℤ) :=
  process_populatedSum_eq_kept cfg cloud

/-! ### C5: ring assignment matches the spec's mapping -/

theorem codeRound_eq_specRound (a : ℝ) : codeRoundAngle a = specRoundTiesAway a := by
  unfold codeRoundAngle specRoundTiesAway truncInt
  by_cases h : a < 0
  · rw [if_pos h]
    rw [show a + -(1 / 2 : ℝ) = a - 1 / 2 by ring]
    rw [if_pos (by linarith : a - 1 / 2 < 0), if_neg (not_le.mpr h)]
    rw [Int.floor_neg, neg_neg]
  · push_neg at h
    rw [if_neg (not_lt.mpr h)]
    rw [if_neg (not_lt.mpr (by linarith : (0 : ℝ) ≤ a + 1 / 2)), if_pos h]

/-- C5: for every point passing the validity filter, the code's ring
assignment computes exactly the spec's mapping — vertical angle in
degrees, rounded to nearest with ties away from zero, offset by `N - 1`
for non-positive rounds — and the point is skipped exactly when the
resulting ring index falls outside `[0, N-1]`. -/
theorem ring_assignment_matches_spec (nScans : ℕ) (p : RawPoint)
    (hfin : allFinite p)
    (hnorm : ¬(p.y * p.y + p.z * p.z + p.x * p.x < 0.0001)) :
    classify nScans p =
      (if 0 ≤ specRingID nScans p.y p.z p.x ∧
          specRingID nScans p.y p.z p.x ≤ (nScans : ℤ) - 1
       then some (specRingID nScans p.y p.z p.x) else none) := by
  obtain ⟨hx, hy, hz⟩ := hfin
  simp only [classify, specRingID, hx, hy, hz]
  rw [if_neg (by simp), if_neg hnorm]
  rw [show p.y ^ 2 + p.x ^ 2 = p.y * p.y + p.x * p.x by ring]
  rw [codeRound_eq_specRound]
  split_ifs <;> first | rfl | omega

/-- Witness for C5 at a forward-axis point with a 16-ring sensor. -/
theorem ring_assignment_matches_spec_witness :
    classify 16 pForward =
      (if 0 ≤ specRingID 16 pForward.y pForward.z pForward.x ∧
          specRingID 16 pForward.y pForward.z pForward.x ≤ (16 : ℤ) - 1
       then some (specRingID 16 pForward.y pForward.z pForward.x) else none) :=
  ring_assignment_matches_spec 16 pForward ⟨rfl, rfl, rfl⟩ (by norm_num [pForward])

/-! ### C6: per-point failures are silent skips -/

/-- C6: running the per-point loop on an input cloud gives exactly the
same state as running it on the subsequence of points that pass all
per-point checks (finite coordinates, norm at least the threshold,
in-range ring): failed points are dropped from every ring buffer, and
the processing of the remaining points is unchanged; the loop is total,
so no error is raised. -/
theorem invalid_points_silently_skipped (cfg : Config) (s e : ℝ) (st : PState)
    (ps : List RawPoint) :
    processPoints cfg s e st (ps.filter (fun p => (classify cfg.nScans p).isSome)) =
      processPoints cfg s e st ps := by
  induction ps generalizing st with
  | nil => rfl
  | cons p ps ih =>
    rw [processPoints]
    cases h : classify cfg.nScans p with
    | none =>
      have hpp : processPoint cfg s e st p = st := by simp [processPoint, h]
      rw [List.filter_cons_of_neg (by simp [h]), hpp]
      exact ih st
    | some sid =>
      rw [List.filter_cons_of_pos (by simp [h]), processPoints]
      exact ih (processPoint cfg s e st p)

end LoamVelodyne
